import Mathlib

/-!
Verification of the ICU property-name lookup engine
(`source/common/propname.cpp`, formatVersion 2 rewrite).

The backing binary table is embedded as plain Lean data:
* `valueMaps` — a `List Int` of 32-bit words (the property range table and
  the per-property value maps);
* `nameGroups` — a `List Nat` of bytes (length-prefixed, NUL-terminated
  name strings);
* the `ByteTrie` automata — modelled abstractly, see below.

C strings are `List Nat` of bytes; a NUL byte terminates the string, so a
well-formed C string is a list that does not contain `0`.  Reading out of
bounds yields `0` (the table is assumed well formed; where a claim is about
not reading past the table we prove independence from the bytes beyond it).
-/

namespace PropName

/-- Read a 32-bit word of the `valueMaps` table; out-of-range reads give 0. -/
def getI (l : List Int) (i : Int) : Int :=
  if 0 ≤ i then l.getD i.toNat 0 else 0

/-- Read a byte of the `nameGroups` region; out-of-range reads give 0. -/
def getByte (g : List Nat) (i : Int) : Nat :=
  if 0 ≤ i then g.getD i.toNat 0 else 0

/-- Read a byte as a (signed) C `char`, widened to `int32_t`. -/
def sChar (g : List Nat) (i : Int) : Int :=
  let b := getByte g i
  if b < 0x80 then (b : Int) else (b : Int) - 256

/-- The sentinel `UCHAR_INVALID_CODE` from `uchar.h`. -/
def UCHAR_INVALID_CODE : Int := -1

/-- Loop of `PropNameData::findProperty`: scan the remaining ranges
(`fuel` many) starting at valueMaps index `i`. -/
def findPropertyFrom (vm : List Int) (property : Int) : Nat → Int → Int
  | 0, _ => 0
  | n + 1, i =>
    let s := getI vm i
    let e := getI vm (i + 1)
    if property < s then 0
    else if property ≤ e then (i + 2) + (property - s) * 2
    else findPropertyFrom vm property n ((i + 2) + ((e - s) + 1) * 2)

/-- Translation of `PropNameData::findProperty`. -/
def findProperty (vm : List Int) (property : Int) : Int :=
  findPropertyFrom vm property (getI vm 0).toNat 1

/-- Ranges-of-values loop of `PropNameData::findPropertyValueNameGroup`. -/
def findValueRanges (vm : List Int) (value : Int) : Nat → Int → Int
  | 0, _ => 0
  | n + 1, i =>
    let s := getI vm i
    let e := getI vm (i + 1)
    if value < s then 0
    else if value ≤ e then getI vm ((i + 2) + (value - s))
    else findValueRanges vm value n ((i + 2) + ((e - s) + 1))

/-- List-of-values do/while loop of `PropNameData::findPropertyValueNameGroup`.
The body runs once before the `++valueMapIndex < nameGroupOffsetsStart`
test, exactly as the C `do { } while`; `fuel` bounds the remaining
iterations and is never exhausted for the initial call. -/
def findValueList (vm : List Int) (value valuesStart ngStart : Int) :
    Nat → Int → Int
  | fuel, i =>
    let v := getI vm i
    if value < v then 0
    else if value = v then getI vm (ngStart + (i - valuesStart))
    else
      match fuel with
      | 0 => 0
      | n + 1 =>
        if i + 1 < ngStart then findValueList vm value valuesStart ngStart n (i + 1)
        else 0

/-- Translation of `PropNameData::findPropertyValueNameGroup`. -/
def findPropertyValueNameGroup (vm : List Int) (valueMapIndex value : Int) : Int :=
  if valueMapIndex = 0 then 0
  else
    let i := valueMapIndex + 1
    let numRanges := getI vm i
    if numRanges < 0x10 then
      findValueRanges vm value numRanges.toNat (i + 1)
    else
      findValueList vm value (i + 1) ((i + 1) + (numRanges - 0x10)) (numRanges - 0x10).toNat (i + 1)

/-- Model of `uprv_strchr(g + p, 0)`: index of the first NUL byte at or after `p`. -/
def strchr0Aux (g : List Nat) : Nat → Int → Int
  | 0, p => p
  | n + 1, p => if getByte g p = 0 then p else strchr0Aux g n (p + 1)

/-- Index of the first NUL byte of `g` at or after `p`. -/
def strchr0 (g : List Nat) (p : Int) : Int :=
  strchr0Aux g (g.length + 1) p

/-- Bytes of the C string starting at index `p` (up to the first NUL). -/
def strFromAux (g : List Nat) : Nat → Int → List Nat
  | 0, _ => []
  | n + 1, p =>
    let b := getByte g p
    if b = 0 then [] else b :: strFromAux g n (p + 1)

/-- The C string starting at index `p` of the name-group region. -/
def strFrom (g : List Nat) (p : Int) : List Nat :=
  strFromAux g (g.length + 1) p

/-- Skip `n` NUL-terminated strings starting at index `p`. -/
def skipStrings (g : List Nat) (p : Int) : Nat → Int
  | 0 => p
  | n + 1 => skipStrings g (strchr0 g p + 1) n

/-- Translation of `PropNameData::getName`: extract the `nameIndex`-th name of the
name group starting at byte `offset` of `ng`.  `none` is the C `NULL`. -/
def getName (ng : List Nat) (offset nameIndex : Int) : Option (List Nat) :=
  let numNames := sChar ng offset
  if nameIndex < 0 ∨ numNames ≤ nameIndex ∨ (nameIndex = 0 ∧ getByte ng (offset + 1) = 0) then
    none
  else
    some (strFrom ng (skipStrings ng (offset + 1) nameIndex.toNat))

/-! ### Loose matching of alias characters -/

/-- Modelled from the spec: `uprv_asciitolower` (from `cstring.h`, outside
this file) lowercases the ASCII letters A..Z and keeps every other byte. -/
def uprv_asciitolower (c : Nat) : Nat :=
  if 0x41 ≤ c ∧ c ≤ 0x5a then c + 0x20 else c

/-- The bytes ignored by loose matching: `-`, `_`, space, and the C0
White_Space characters 0x09..0x0d (the ASCII branch of the code). -/
def isIgnorable (c : Nat) : Bool :=
  c = 0x2d || c = 0x5f || c = 0x20 || (0x09 ≤ c && c ≤ 0x0d)

/-- The stream of significant characters of an alias: drop the ignorable
bytes, lowercase the rest.  This is what both the comparator and the
trie lookup actually consume. -/
def sigList (a : List Nat) : List Nat :=
  (a.filter (fun c => !isIgnorable c)).map uprv_asciitolower

/-- Translation of `getASCIIPropertyNameChar`: skip ignorable bytes, then return the next
byte lowercased (0 at the end of the string) together with the rest of
the string after it. -/
def getASCIIPropertyNameChar : List Nat → Nat × List Nat
  | [] => (0, [])
  | c :: rest =>
    if isIgnorable c then getASCIIPropertyNameChar rest
    else (uprv_asciitolower c, rest)

theorem getASCIIPropertyNameChar_length {a : List Nat}
    (h : (getASCIIPropertyNameChar a).1 ≠ 0) :
    (getASCIIPropertyNameChar a).2.length < a.length := by
  induction a with
  | nil => simp [getASCIIPropertyNameChar] at h
  | cons c rest ih =>
    by_cases hc : isIgnorable c
    · have h' : (getASCIIPropertyNameChar rest).1 ≠ 0 := by
        simpa [getASCIIPropertyNameChar, hc] using h
      have := ih h'
      simp only [getASCIIPropertyNameChar, hc, if_pos]
      simpa using Nat.lt_succ_of_lt this
    · simp [getASCIIPropertyNameChar, hc]

/-- Translation of `uprv_compareASCIIPropertyNames`: three-way loose comparison of two
NUL-terminated byte strings. -/
def uprv_compareASCIIPropertyNames (a b : List Nat) : Int :=
  let r1 := getASCIIPropertyNameChar a
  let r2 := getASCIIPropertyNameChar b
  if h1 : r1.1 = 0 ∧ r2.1 = 0 then 0
  else if h2 : r1.1 ≠ r2.1 then (r1.1 : Int) - (r2.1 : Int)
  else uprv_compareASCIIPropertyNames r1.2 r2.2
termination_by a.length + b.length
decreasing_by
  have heq := not_not.mp h2
  have ha : (getASCIIPropertyNameChar a).1 ≠ 0 := fun h0 => h1 ⟨h0, heq ▸ h0⟩
  have hb : (getASCIIPropertyNameChar b).1 ≠ 0 := heq ▸ ha
  exact Nat.add_lt_add (getASCIIPropertyNameChar_length ha)
    (getASCIIPropertyNameChar_length hb)

/-! ### The reverse-lookup automaton -/

/-- Modelled from the spec: the `ByteTrie` prefix-matching automaton
(`bytetrie.h`, not part of this file's source) is opaque to the core and
driven only through "consume one byte", "is the current position a valid
terminal", and "value at the terminal".  We model it extensionally as the
finite map it recognises: a list of (byte string, value) entries. -/
structure ByteTrie where
  entries : List (List Nat × Int)

/-- Modelled from the spec: `ByteTrie::next(b)` succeeds exactly when the
bytes consumed so far, extended by `b`, are still a prefix of some stored
string. -/
def ByteTrie.canStep (t : ByteTrie) (consumed : List Nat) (c : Nat) : Bool :=
  t.entries.any (fun en => (consumed ++ [c]).isPrefixOf en.1)

/-- Modelled from the spec: `ByteTrie::contains()` reports whether the
bytes consumed so far are exactly one of the stored strings. -/
def ByteTrie.containsAt (t : ByteTrie) (consumed : List Nat) : Bool :=
  t.entries.any (fun en => en.1 = consumed)

/-- The value stored for a byte string, if any. -/
def ByteTrie.lookup (t : ByteTrie) (key : List Nat) : Option Int :=
  (t.entries.find? (fun en => en.1 = key)).map (fun en => en.2)

/-- Modelled from the spec: `ByteTrie::getValue()` at a terminal position. -/
def ByteTrie.valueAt (t : ByteTrie) (consumed : List Nat) : Int :=
  (t.lookup consumed).getD UCHAR_INVALID_CODE

/-- The loop of `PropNameData::containsName`, also keeping the final
automaton position so that `getValue` can be read off afterwards:
`some pos` means the C `containsName` returns TRUE with the trie cursor
at `pos`; `none` means it returns FALSE. -/
def matchName (t : ByteTrie) : List Nat → List Nat → Option (List Nat)
  | consumed, [] => if t.containsAt consumed then some consumed else none
  | consumed, c :: rest =>
    if c = 0 then (if t.containsAt consumed then some consumed else none)
    else
      let c' := uprv_asciitolower c
      if isIgnorable c' then matchName t consumed rest
      else if t.canStep consumed c' then matchName t (consumed ++ [c']) rest
      else none

/-- Translation of `PropNameData::containsName`; a `none` alias is the C null pointer. -/
def containsName (t : ByteTrie) (al : Option (List Nat)) : Bool :=
  match al with
  | none => false
  | some a => (matchName t [] a).isSome

/-! ### The facade -/

/-- Translation of `PropNameData::getPropertyName`. -/
def getPropertyName (vm : List Int) (ng : List Nat) (property nameChoice : Int) :
    Option (List Nat) :=
  let i := findProperty vm property
  if i = 0 then none
  else getName ng (getI vm i) nameChoice

/-- Translation of `PropNameData::getPropertyValueName`. -/
def getPropertyValueName (vm : List Int) (ng : List Nat)
    (property value nameChoice : Int) : Option (List Nat) :=
  let i := findProperty vm property
  if i = 0 then none
  else
    let ngo := findPropertyValueNameGroup vm (getI vm (i + 1)) value
    if ngo = 0 then none
    else getName ng ngo nameChoice

/-- Translation of `PropNameData::getPropertyOrValueEnum`: run `containsName` against the
trie at `byteTrieOffset` and read its value on success.  `tries` maps a
byte offset of the automaton region to the automaton starting there. -/
def getPropertyOrValueEnum (tries : Int → ByteTrie) (byteTrieOffset : Int)
    (al : Option (List Nat)) : Int :=
  match al with
  | none => UCHAR_INVALID_CODE
  | some a =>
    match matchName (tries byteTrieOffset) [] a with
    | some pos => (tries byteTrieOffset).valueAt pos
    | none => UCHAR_INVALID_CODE

/-- Translation of `PropNameData::getPropertyEnum`. -/
def getPropertyEnum (tries : Int → ByteTrie) (al : Option (List Nat)) : Int :=
  getPropertyOrValueEnum tries 0 al

/-- Translation of `PropNameData::getPropertyValueEnum`. -/
def getPropertyValueEnum (vm : List Int) (tries : Int → ByteTrie)
    (property : Int) (al : Option (List Nat)) : Int :=
  let i := findProperty vm property
  if i = 0 then UCHAR_INVALID_CODE
  else
    let vmi := getI vm (i + 1)
    if vmi = 0 then UCHAR_INVALID_CODE
    else getPropertyOrValueEnum tries (getI vm vmi) al

/-! ### Concrete dense-encoding scenario (spec §8) -/

/-- The `valueMaps` words of the concrete scenario: one property range
`(0, 2)` whose records are `(nameGroup, valueMap)` pairs; property 0's
value map sits at word 9: trie offset 1, one dense value range `(0, 1)`,
both values mapping to name group 1. -/
def vmScenario : List Int := [1, 0, 2, 13, 9, 0, 0, 0, 0, 1, 1, 0, 1, 1, 1]

/-- The `nameGroups` bytes of the concrete scenario: group at offset 1 has
count 2 and names "Foo" and "Foobar"; group at offset 13 (property 0's own
name group) has count 1 and name "K". -/
def ngScenario : List Nat :=
  [0, 2, 70, 111, 111, 0, 70, 111, 111, 98, 97, 114, 0, 1, 75, 0]

/-- The automaton region of the concrete scenario: at offset 1, the
value-alias trie of property 0 maps "foo" to value 0. -/
def triesScenario : Int → ByteTrie :=
  fun off => if off = 1 then ⟨[([102, 111, 111], 0)]⟩ else ⟨[]⟩

/-- Automaton region for the round-trip witness: additionally the root
trie at offset 0 maps "k" (the normalized short name of property 0) to
property code 0. -/
def triesRoundtrip : Int → ByteTrie :=
  fun off => if off = 0 then ⟨[([107], 0)]⟩ else triesScenario off

/-! ### Helper lemmas -/

theorem strchr0_of_zero {g : List Nat} {p : Int} (h : getByte g p = 0) :
    strchr0 g p = p := by
  simp [strchr0, strchr0Aux, h]

theorem strFrom_ne_nil {g : List Nat} {p : Int} (h : getByte g p ≠ 0) :
    strFrom g p ≠ [] := by
  simp [strFrom, strFromAux, h]

theorem strFrom_ne_zero {g : List Nat} {p : Int} {c : Nat}
    (hc : c ∈ strFrom g p) : c ≠ 0 := by
  rw [strFrom] at hc
  generalize g.length + 1 = fuel at hc
  induction fuel generalizing p with
  | zero => simp [strFromAux] at hc
  | succ n ih =>
    rw [strFromAux] at hc
    by_cases hb : getByte g p = 0
    · simp [hb] at hc
    · simp only [hb, if_neg] at hc
      rcases List.mem_cons.mp hc with h | h
      · exact h ▸ hb
      · exact ih h

/-- Three-way lexicographic comparison of two significant-character
streams: the reference order the loose comparator is claimed to compute. -/
def sigCompare : List Nat → List Nat → Int
  | [], [] => 0
  | [], c :: _ => -(c : Int)
  | c :: _, [] => (c : Int)
  | c :: cs, d :: ds => if c ≠ d then (c : Int) - (d : Int) else sigCompare cs ds

theorem uprv_asciitolower_ne_zero {c : Nat} (h : c ≠ 0) :
    uprv_asciitolower c ≠ 0 := by
  unfold uprv_asciitolower
  split <;> omega

theorem sigList_ne_zero {a : List Nat} (h : ∀ c ∈ a, c ≠ 0) :
    ∀ c ∈ sigList a, c ≠ 0 := by
  intro c hc
  rcases List.mem_map.mp hc with ⟨d, hd, rfl⟩
  exact uprv_asciitolower_ne_zero (h d (List.mem_of_mem_filter hd))

/-- How `getASCIIPropertyNameChar` relates to the significant-character
stream of a NUL-free byte string: either the stream is empty and the
extracted character is 0, or it extracts exactly the head of the stream
and leaves a NUL-free remainder whose stream is the tail. -/
theorem getASCIIPropertyNameChar_sig {a : List Nat} (hz : ∀ c ∈ a, c ≠ 0) :
    ((getASCIIPropertyNameChar a).1 = 0 ∧ sigList a = []) ∨
    ((getASCIIPropertyNameChar a).1 ≠ 0 ∧
      sigList a = (getASCIIPropertyNameChar a).1 :: sigList (getASCIIPropertyNameChar a).2 ∧
      ∀ c ∈ (getASCIIPropertyNameChar a).2, c ≠ 0) := by
  induction a with
  | nil => left; exact ⟨rfl, rfl⟩
  | cons c rest ih =>
    have hc : c ≠ 0 := hz c (List.mem_cons_self c rest)
    have hrest : ∀ x ∈ rest, x ≠ 0 := fun x hx => hz x (List.mem_cons_of_mem c hx)
    by_cases hig : isIgnorable c
    · have hgc : getASCIIPropertyNameChar (c :: rest) = getASCIIPropertyNameChar rest := by
        simp [getASCIIPropertyNameChar, hig]
      have hsl : sigList (c :: rest) = sigList rest := by
        simp [sigList, List.filter_cons, hig]
      rw [hgc, hsl]
      exact ih hrest
    · have hgc : getASCIIPropertyNameChar (c :: rest) = (uprv_asciitolower c, rest) := by
        simp [getASCIIPropertyNameChar, hig]
      have hsl : sigList (c :: rest) = uprv_asciitolower c :: sigList rest := by
        simp [sigList, List.filter_cons, hig]
      rw [hgc, hsl]
      right
      exact ⟨uprv_asciitolower_ne_zero hc, rfl, hrest⟩

theorem sigCompare_nil_nil : sigCompare [] [] = 0 := rfl

theorem sigCompare_nil_cons (c : Nat) (cs : List Nat) :
    sigCompare [] (c :: cs) = -(c : Int) := rfl

theorem sigCompare_cons_nil (c : Nat) (cs : List Nat) :
    sigCompare (c :: cs) [] = (c : Int) := rfl

theorem sigCompare_cons_cons (c d : Nat) (cs ds : List Nat) :
    sigCompare (c :: cs) (d :: ds) =
      if c ≠ d then (c : Int) - (d : Int) else sigCompare cs ds := rfl

/-- The loose comparator computes exactly the three-way comparison of the
two significant-character streams (for NUL-free C strings). -/
theorem compare_eq_sigCompare_aux :
    ∀ (n : Nat) (a b : List Nat), a.length + b.length ≤ n →
      (∀ c ∈ a, c ≠ 0) → (∀ c ∈ b, c ≠ 0) →
      uprv_compareASCIIPropertyNames a b = sigCompare (sigList a) (sigList b) := by
  intro n
  induction n with
  | zero =>
    intro a b hlen ha hb
    have hna : a = [] := by cases a <;> simp_all
    have hnb : b = [] := by cases b <;> simp_all
    subst hna; subst hnb
    rw [uprv_compareASCIIPropertyNames]
    simp [getASCIIPropertyNameChar, sigList, sigCompare]
  | succ n ih =>
    intro a b hlen ha hb
    rw [uprv_compareASCIIPropertyNames]
    rcases getASCIIPropertyNameChar_sig ha with ⟨h1, hs1⟩ | ⟨h1, hs1, hz1⟩ <;>
      rcases getASCIIPropertyNameChar_sig hb with ⟨h2, hs2⟩ | ⟨h2, hs2, hz2⟩
    · rw [dif_pos ⟨h1, h2⟩, hs1, hs2, sigCompare_nil_nil]
    · have hcond : ¬((getASCIIPropertyNameChar a).1 = 0 ∧ (getASCIIPropertyNameChar b).1 = 0) :=
        fun h => h2 h.2
      have hne : (getASCIIPropertyNameChar a).1 ≠ (getASCIIPropertyNameChar b).1 := by
        rw [h1]; exact fun h => h2 h.symm
      rw [dif_neg hcond, dif_pos hne, hs1, hs2, sigCompare_nil_cons, h1]
      simp
    · have hcond : ¬((getASCIIPropertyNameChar a).1 = 0 ∧ (getASCIIPropertyNameChar b).1 = 0) :=
        fun h => h1 h.1
      have hne : (getASCIIPropertyNameChar a).1 ≠ (getASCIIPropertyNameChar b).1 := by
        rw [h2]; exact h1
      rw [dif_neg hcond, dif_pos hne, hs1, hs2, sigCompare_cons_nil, h2]
      simp
    · have hcond : ¬((getASCIIPropertyNameChar a).1 = 0 ∧ (getASCIIPropertyNameChar b).1 = 0) :=
        fun h => h1 h.1
      rw [dif_neg hcond, hs1, hs2, sigCompare_cons_cons]
      by_cases heq : (getASCIIPropertyNameChar a).1 = (getASCIIPropertyNameChar b).1
      · have hrec := ih (getASCIIPropertyNameChar a).2 (getASCIIPropertyNameChar b).2
          (by
            have la := getASCIIPropertyNameChar_length h1
            have lb := getASCIIPropertyNameChar_length h2
            omega)
          hz1 hz2
        rw [dif_neg (not_not_intro heq), if_neg (not_not_intro heq), hrec]
      · rw [dif_pos heq, if_pos heq]

theorem sigCompare_eq_zero_iff :
    ∀ {xs ys : List Nat}, (∀ c ∈ xs, c ≠ 0) → (∀ c ∈ ys, c ≠ 0) →
      (sigCompare xs ys = 0 ↔ xs = ys) := by
  intro xs
  induction xs with
  | nil =>
    intro ys _ hy
    cases ys with
    | nil => simp [sigCompare_nil_nil]
    | cons c cs =>
      have hc : c ≠ 0 := hy c (List.mem_cons_self c cs)
      rw [sigCompare_nil_cons]
      constructor
      · intro h; exfalso; omega
      · intro h; exact absurd h (by simp)
  | cons c cs ih =>
    intro ys hx hy
    cases ys with
    | nil =>
      have hc : c ≠ 0 := hx c (List.mem_cons_self c cs)
      rw [sigCompare_cons_nil]
      constructor
      · intro h; exfalso; omega
      · intro h; exact absurd h (by simp)
    | cons d ds =>
      rw [sigCompare_cons_cons]
      by_cases hcd : c = d
      · subst hcd
        rw [if_neg (not_not_intro rfl)]
        have h1 : ∀ x ∈ cs, x ≠ 0 := fun x hx' => hx x (List.mem_cons_of_mem c hx')
        have h2 : ∀ x ∈ ds, x ≠ 0 := fun x hx' => hy x (List.mem_cons_of_mem c hx')
        rw [ih h1 h2]
        simp
      · rw [if_pos hcd]
        constructor
        · intro h; exfalso; omega
        · intro h
          rw [List.cons.injEq] at h
          exact absurd h.1 hcd

theorem sigCompare_neg : ∀ (xs ys : List Nat), sigCompare ys xs = -sigCompare xs ys := by
  intro xs
  induction xs with
  | nil =>
    intro ys
    cases ys with
    | nil => simp [sigCompare_nil_nil]
    | cons c cs => rw [sigCompare_nil_cons, sigCompare_cons_nil]; simp
  | cons c cs ih =>
    intro ys
    cases ys with
    | nil => rw [sigCompare_nil_cons, sigCompare_cons_nil]
    | cons d ds =>
      rw [sigCompare_cons_cons, sigCompare_cons_cons]
      by_cases hcd : c = d
      · subst hcd
        rw [if_neg (not_not_intro rfl), if_neg (not_not_intro rfl), ih]
      · rw [if_pos hcd, if_pos (Ne.symm hcd)]
        omega

theorem sigCompare_trans :
    ∀ {xs ys zs : List Nat}, (∀ c ∈ xs, c ≠ 0) → (∀ c ∈ ys, c ≠ 0) →
      sigCompare xs ys ≤ 0 → sigCompare ys zs ≤ 0 → sigCompare xs zs ≤ 0 := by
  intro xs
  induction xs with
  | nil =>
    intro ys zs _ _ _ _
    cases zs with
    | nil => rw [sigCompare_nil_nil]
    | cons z zs' => rw [sigCompare_nil_cons]; omega
  | cons x xs' ih =>
    intro ys zs hx hy h1 h2
    cases ys with
    | nil =>
      exfalso
      have hx0 : x ≠ 0 := hx x (List.mem_cons_self x xs')
      rw [sigCompare_cons_nil] at h1
      omega
    | cons y ys' =>
      cases zs with
      | nil =>
        exfalso
        have hy0 : y ≠ 0 := hy y (List.mem_cons_self y ys')
        rw [sigCompare_cons_nil] at h2
        omega
      | cons z zs' =>
        rw [sigCompare_cons_cons] at h1 h2 ⊢
        by_cases hxy : x = y
        · rw [if_neg (not_not_intro hxy)] at h1
          by_cases hyz : y = z
          · rw [if_neg (not_not_intro hyz)] at h2
            have hxz : x = z := hxy.trans hyz
            rw [if_neg (not_not_intro hxz)]
            exact ih (fun c hc => hx c (List.mem_cons_of_mem x hc))
              (fun c hc => hy c (List.mem_cons_of_mem y hc)) h1 h2
          · rw [if_pos hyz] at h2
            have hxz : ¬x = z := by omega
            rw [if_pos hxz]
            omega
        · rw [if_pos hxy] at h1
          by_cases hyz : y = z
          · have hxz : ¬x = z := by omega
            rw [if_pos hxz]
            omega
          · rw [if_pos hyz] at h2
            have hxz : ¬x = z := by omega
            rw [if_pos hxz]
            omega

/-! ### Character-level facts about loose normalization -/

theorem isIgnorable_iff (c : Nat) :
    isIgnorable c = true ↔ (c = 45 ∨ c = 95 ∨ c = 32 ∨ (9 ≤ c ∧ c ≤ 13)) := by
  simp only [isIgnorable, Bool.or_eq_true, decide_eq_true_eq, Bool.and_eq_true]
  tauto

theorem isIgnorable_ext {b c : Nat}
    (h : (b = 45 ∨ b = 95 ∨ b = 32 ∨ (9 ≤ b ∧ b ≤ 13)) ↔
         (c = 45 ∨ c = 95 ∨ c = 32 ∨ (9 ≤ c ∧ c ≤ 13))) :
    isIgnorable b = isIgnorable c := by
  rw [Bool.eq_iff_iff, isIgnorable_iff, isIgnorable_iff]
  exact h

theorem isIgnorable_lower (c : Nat) :
    isIgnorable (uprv_asciitolower c) = isIgnorable c := by
  unfold uprv_asciitolower
  split
  · apply isIgnorable_ext
    omega
  · rfl

theorem isIgnorable_ne_zero {c : Nat} (h : isIgnorable c = true) : c ≠ 0 := by
  rw [isIgnorable_iff] at h
  omega

theorem sigList_cons (c : Nat) (l : List Nat) :
    sigList (c :: l) =
      if isIgnorable c then sigList l else uprv_asciitolower c :: sigList l := by
  rcases hig : isIgnorable c with _ | _ <;>
    simp [sigList, List.filter_cons, hig]

theorem sigList_append (x y : List Nat) :
    sigList (x ++ y) = sigList x ++ sigList y := by
  simp [sigList]

theorem sigList_eq_nil_of_ignorable {w : List Nat}
    (h : ∀ c ∈ w, isIgnorable c = true) : sigList w = [] := by
  induction w with
  | nil => rfl
  | cons c rest ih =>
    rw [sigList_cons, if_pos (h c (List.mem_cons_self c rest))]
    exact ih fun x hx => h x (List.mem_cons_of_mem c hx)

/-! ### Facts about the modelled automaton -/

theorem lookup_mem {t : ByteTrie} {key : List Nat} {v : Int}
    (h : t.lookup key = some v) : ∃ en ∈ t.entries, en.1 = key ∧ en.2 = v := by
  unfold ByteTrie.lookup at h
  rcases Option.map_eq_some'.mp h with ⟨en, hfind, hv⟩
  have hp := List.find?_some hfind
  simp only [decide_eq_true_eq] at hp
  exact ⟨en, List.mem_of_find?_eq_some hfind, hp, hv⟩

theorem containsAt_iff_lookup {t : ByteTrie} {key : List Nat} :
    t.containsAt key = true ↔ (t.lookup key).isSome := by
  unfold ByteTrie.containsAt ByteTrie.lookup
  rw [List.any_eq_true, Option.isSome_map', List.find?_isSome]

theorem canStep_of_mem {t : ByteTrie} {en : List Nat × Int} (hmem : en ∈ t.entries)
    {consumed : List Nat} {c : Nat} (hpre : (consumed ++ [c]) <+: en.1) :
    t.canStep consumed c = true := by
  unfold ByteTrie.canStep
  rw [List.any_eq_true]
  exact ⟨en, hmem, List.isPrefixOf_iff_prefix.mpr hpre⟩

theorem valueAt_mem {t : ByteTrie} {pos : List Nat} (h : t.containsAt pos = true) :
    ∃ en ∈ t.entries, t.valueAt pos = en.2 := by
  have hs := containsAt_iff_lookup.mp h
  rcases Option.isSome_iff_exists.mp hs with ⟨v, hv⟩
  rcases lookup_mem hv with ⟨en, hmem, _, hsnd⟩
  exact ⟨en, hmem, by rw [ByteTrie.valueAt, hv]; exact hsnd.symm⟩

/-- Variant of `matchName` on the significant-character stream alone. -/
def matchSig (t : ByteTrie) : List Nat → List Nat → Option (List Nat)
  | consumed, [] => if t.containsAt consumed then some consumed else none
  | consumed, c :: rest =>
    if t.canStep consumed c then matchSig t (consumed ++ [c]) rest else none

theorem matchSig_nil (t : ByteTrie) (consumed : List Nat) :
    matchSig t consumed [] = if t.containsAt consumed then some consumed else none := rfl

theorem matchSig_cons (t : ByteTrie) (consumed : List Nat) (c : Nat) (rest : List Nat) :
    matchSig t consumed (c :: rest) =
      if t.canStep consumed c then matchSig t (consumed ++ [c]) rest else none := rfl

/-- For a NUL-free alias, `containsName`'s loop depends only on the
significant-character stream. -/
theorem matchName_sig {t : ByteTrie} :
    ∀ (a consumed : List Nat), (∀ c ∈ a, c ≠ 0) →
      matchName t consumed a = matchSig t consumed (sigList a) := by
  intro a
  induction a with
  | nil => intro consumed _; rfl
  | cons c rest ih =>
    intro consumed hz
    have hc : c ≠ 0 := hz c (List.mem_cons_self c rest)
    have hrest : ∀ x ∈ rest, x ≠ 0 := fun x hx => hz x (List.mem_cons_of_mem c hx)
    rw [matchName, if_neg hc, sigList_cons]
    by_cases hig : isIgnorable c
    · rw [if_pos (by rw [isIgnorable_lower]; exact hig), if_pos hig]
      exact ih consumed hrest
    · rw [if_neg (by rw [isIgnorable_lower]; exact hig), if_neg hig, matchSig_cons]
      by_cases hstep : t.canStep consumed (uprv_asciitolower c) = true
      · rw [if_pos hstep, if_pos hstep]
        exact ih _ hrest
      · rw [if_neg hstep, if_neg hstep]

/-- Walking `matchSig` along a stored key succeeds and ends at that key. -/
theorem matchSig_of_lookup {t : ByteTrie} {key : List Nat} {v : Int}
    (hk : t.lookup key = some v) :
    ∀ (tail consumed : List Nat), consumed ++ tail = key →
      matchSig t consumed tail = some key := by
  intro tail
  induction tail with
  | nil =>
    intro consumed hsum
    rw [List.append_nil] at hsum
    subst hsum
    rw [matchSig, if_pos (containsAt_iff_lookup.mpr (by rw [hk]; rfl))]
  | cons c rest ih =>
    intro consumed hsum
    rcases lookup_mem hk with ⟨en, hmem, hen, _⟩
    have hpre : (consumed ++ [c]) <+: en.1 := by
      rw [hen, ← hsum]
      exact ⟨rest, by simp⟩
    rw [matchSig, if_pos (canStep_of_mem hmem hpre)]
    exact ih (consumed ++ [c]) (by rw [← hsum]; simp)

/-- A successful `containsName` run ends at a terminal position. -/
theorem matchName_some_containsAt {t : ByteTrie} :
    ∀ {a consumed pos : List Nat}, matchName t consumed a = some pos →
      t.containsAt pos = true := by
  intro a
  induction a with
  | nil =>
    intro consumed pos h
    rw [matchName] at h
    by_cases hc : t.containsAt consumed = true
    · rw [if_pos hc] at h
      injection h with h'
      exact h' ▸ hc
    · rw [if_neg hc] at h
      exact absurd h (by simp)
  | cons c rest ih =>
    intro consumed pos h
    rw [matchName] at h
    by_cases h0 : c = 0
    · rw [if_pos h0] at h
      by_cases hc : t.containsAt consumed = true
      · rw [if_pos hc] at h
        injection h with h'
        exact h' ▸ hc
      · rw [if_neg hc] at h
        exact absurd h (by simp)
    · rw [if_neg h0] at h
      by_cases hig : isIgnorable (uprv_asciitolower c) = true
      · rw [if_pos hig] at h
        exact ih h
      · rw [if_neg hig] at h
        by_cases hstep : t.canStep consumed (uprv_asciitolower c) = true
        · rw [if_pos hstep] at h
          exact ih h
        · rw [if_neg hstep] at h
          exact absurd h (by simp)

/-! ### Serialized property range tables -/

/-- Serialize a list of property ranges `(start, end, entries)` into the
flat word layout the scanner walks: two header words per range followed
by that range's record block. -/
def serializeRanges : List (Int × Int × List Int) → List Int
  | [] => []
  | (s, e, ent) :: rest => s :: e :: (ent ++ serializeRanges rest)

/-- A full property range table: the `numRanges` word, then the ranges. -/
def serializeTable (rs : List (Int × Int × List Int)) : List Int :=
  (rs.length : Int) :: serializeRanges rs

/-- Well-formedness of a range list with all starts bounded below by `lo`:
ranges are ascending and disjoint, and each record block holds two words
per property of the range. -/
def wfFrom : Int → List (Int × Int × List Int) → Prop
  | _, [] => True
  | lo, (s, e, ent) :: rest =>
      lo ≤ s ∧ s ≤ e ∧ (ent.length : Int) = ((e - s) + 1) * 2 ∧ wfFrom (e + 1) rest

/-- The range scan, structurally on the range list (`i` is the word index
of the current range's header in the serialized table). -/
def findSpec : List (Int × Int × List Int) → Int → Int → Int
  | [], _, _ => 0
  | (s, e, ent) :: rest, i, p =>
    if p < s then 0
    else if p ≤ e then (i + 2) + (p - s) * 2
    else findSpec rest (i + 2 + (ent.length : Int)) p

/-- The last range's end (0 for an empty table). -/
def lastEnd : List (Int × Int × List Int) → Int
  | [] => 0
  | [(_, e, _)] => e
  | _ :: r2 :: rest => lastEnd (r2 :: rest)

/-- Whether `p` lies inside some range of the table. -/
def covers (rs : List (Int × Int × List Int)) (p : Int) : Prop :=
  ∃ r ∈ rs, r.1 ≤ p ∧ p ≤ r.2.1

theorem getI_append_right (pre l : List Int) (k : Int) (hk : 0 ≤ k) :
    getI (pre ++ l) ((pre.length : Int) + k) = getI l k := by
  unfold getI
  rw [if_pos (by omega), if_pos hk]
  rw [show ((pre.length : Int) + k).toNat = pre.length + k.toNat by omega,
    List.getD_append_right pre l 0 _ (Nat.le_add_right _ _)]
  congr 1
  omega

theorem getI_cons_zero (x : Int) (l : List Int) : getI (x :: l) 0 = x := by
  unfold getI
  rw [if_pos le_rfl]
  rfl

theorem getI_cons_succ (x : Int) (l : List Int) (k : Int) (hk : 0 ≤ k) :
    getI (x :: l) (k + 1) = getI l k := by
  unfold getI
  rw [if_pos (by omega), if_pos hk,
    show (k + 1).toNat = k.toNat + 1 by omega]
  rfl

/-- The scanner over a serialized table computes `findSpec`, regardless of
what lies after the table (`junk` is never read). -/
theorem findPropertyFrom_serialize :
    ∀ (rs : List (Int × Int × List Int)) (lo : Int) (pre junk : List Int) (p : Int),
      wfFrom lo rs →
      findPropertyFrom (pre ++ (serializeRanges rs ++ junk)) p rs.length (pre.length : Int) =
        findSpec rs (pre.length : Int) p := by
  intro rs
  induction rs with
  | nil => intro lo pre junk p _; rfl
  | cons r rest ih =>
    rcases r with ⟨s, e, ent⟩
    intro lo pre junk p hwf
    rcases hwf with ⟨hlo, hse, hlen, hwf'⟩
    have hser : serializeRanges ((s, e, ent) :: rest) ++ junk
        = s :: (e :: (ent ++ (serializeRanges rest ++ junk))) := by
      simp [serializeRanges]
    rw [hser, List.length_cons]
    have hs : getI (pre ++ (s :: (e :: (ent ++ (serializeRanges rest ++ junk)))))
        (pre.length : Int) = s := by
      have h := getI_append_right pre
        (s :: (e :: (ent ++ (serializeRanges rest ++ junk)))) 0 le_rfl
      rw [add_zero] at h
      rw [h, getI_cons_zero]
    have he : getI (pre ++ (s :: (e :: (ent ++ (serializeRanges rest ++ junk)))))
        ((pre.length : Int) + 1) = e := by
      rw [getI_append_right pre _ 1 (by norm_num),
        show (1 : Int) = 0 + 1 by norm_num, getI_cons_succ _ _ _ le_rfl, getI_cons_zero]
    simp only [findPropertyFrom, findSpec, hs, he]
    by_cases h1 : p < s
    · rw [if_pos h1, if_pos h1]
    · rw [if_neg h1, if_neg h1]
      by_cases h2 : p ≤ e
      · rw [if_pos h2, if_pos h2]
      · rw [if_neg h2, if_neg h2]
        have hassoc : pre ++ (s :: (e :: (ent ++ (serializeRanges rest ++ junk))))
            = (pre ++ (s :: e :: ent)) ++ (serializeRanges rest ++ junk) := by
          simp
        rw [hassoc]
        have hidx : ((pre.length : Int) + 2) + ((e - s) + 1) * 2
            = ((pre ++ (s :: e :: ent)).length : Int) := by
          rw [List.length_append]
          push_cast
          simp only [List.length_cons]
          push_cast
          omega
        rw [hidx, ih (e + 1) (pre ++ (s :: e :: ent)) junk p hwf']
        congr 1
        rw [List.length_append]
        push_cast
        simp only [List.length_cons]
        push_cast
        omega

/-- Evaluating `findProperty` on a serialized well-formed table is the structural
range scan; in particular it never depends on words after the table. -/
theorem findProperty_serialize (rs : List (Int × Int × List Int)) (lo : Int)
    (junk : List Int) (p : Int) (hwf : wfFrom lo rs) :
    findProperty (serializeTable rs ++ junk) p = findSpec rs 1 p := by
  unfold findProperty serializeTable
  have hl : ((rs.length : Int) :: serializeRanges rs) ++ junk
      = ((rs.length : Int)) :: (serializeRanges rs ++ junk) := by simp
  rw [hl, getI_cons_zero, Int.toNat_natCast]
  have h := findPropertyFrom_serialize rs lo [(rs.length : Int)] junk p hwf
  simpa using h

theorem findSpec_pos : ∀ (rs : List (Int × Int × List Int)) (i p : Int),
    findSpec rs i p = 0 ∨ i + 2 ≤ findSpec rs i p := by
  intro rs
  induction rs with
  | nil => intro i p; exact Or.inl rfl
  | cons r rest ih =>
    rcases r with ⟨s, e, ent⟩
    intro i p
    simp only [findSpec]
    by_cases h1 : p < s
    · rw [if_pos h1]; exact Or.inl rfl
    · rw [if_neg h1]
      by_cases h2 : p ≤ e
      · rw [if_pos h2]
        right
        have : (0 : Int) ≤ p - s := by omega
        omega
      · rw [if_neg h2]
        rcases ih (i + 2 + (ent.length : Int)) p with h | h
        · exact Or.inl h
        · right
          have : (0 : Int) ≤ (ent.length : Int) := Int.natCast_nonneg _
          omega

theorem wfFrom_mem : ∀ (rs : List (Int × Int × List Int)) (lo : Int),
    wfFrom lo rs → ∀ r ∈ rs, lo ≤ r.1 ∧ r.1 ≤ r.2.1 := by
  intro rs
  induction rs with
  | nil => intro lo _ r hr; exact absurd hr (by simp)
  | cons hd rest ih =>
    rcases hd with ⟨s, e, ent⟩
    intro lo hwf r hr
    rcases hwf with ⟨hlo, hse, _, hwf'⟩
    rcases List.mem_cons.mp hr with rfl | hr'
    · exact ⟨hlo, hse⟩
    · have h := ih (e + 1) hwf' r hr'
      exact ⟨by omega, h.2⟩

theorem wfFrom_ends : ∀ (rs : List (Int × Int × List Int)) (lo : Int),
    wfFrom lo rs → ∀ r ∈ rs, r.2.1 ≤ lastEnd rs := by
  intro rs
  induction rs with
  | nil => intro lo _ r hr; exact absurd hr (by simp)
  | cons hd rest ih =>
    rcases hd with ⟨s, e, ent⟩
    intro lo hwf r hr
    rcases hwf with ⟨hlo, hse, _, hwf'⟩
    cases rest with
    | nil =>
      rcases List.mem_cons.mp hr with rfl | hr'
      · exact le_rfl
      · exact absurd hr' (by simp)
    | cons r2 rest2 =>
      have hle : lastEnd ((s, e, ent) :: r2 :: rest2) = lastEnd (r2 :: rest2) := rfl
      rw [hle]
      rcases List.mem_cons.mp hr with rfl | hr'
      · have hm := wfFrom_mem (r2 :: rest2) (e + 1) hwf' r2 (List.mem_cons_self r2 rest2)
        have h2 := ih (e + 1) hwf' r2 (List.mem_cons_self r2 rest2)
        show e ≤ lastEnd (r2 :: rest2)
        omega
      · exact ih (e + 1) hwf' r hr'

theorem findSpec_not_covers : ∀ (rs : List (Int × Int × List Int)) (lo i p : Int),
    wfFrom lo rs → ¬covers rs p → findSpec rs i p = 0 := by
  intro rs
  induction rs with
  | nil => intro lo i p _ _; rfl
  | cons hd rest ih =>
    rcases hd with ⟨s, e, ent⟩
    intro lo i p hwf hnc
    rcases hwf with ⟨hlo, hse, hlen, hwf'⟩
    simp only [findSpec]
    by_cases h1 : p < s
    · rw [if_pos h1]
    · rw [if_neg h1]
      by_cases h2 : p ≤ e
      · exact absurd ⟨(s, e, ent), List.mem_cons_self _ _, by omega, h2⟩ hnc
      · rw [if_neg h2]
        exact ih (e + 1) _ p hwf' fun ⟨r, hr, hcov⟩ =>
          hnc ⟨r, List.mem_cons_of_mem _ hr, hcov⟩

theorem findSpec_covers_ne : ∀ (rs : List (Int × Int × List Int)) (lo i p : Int),
    wfFrom lo rs → 0 ≤ i → covers rs p → findSpec rs i p ≠ 0 := by
  intro rs
  induction rs with
  | nil => intro lo i p _ _ hcov; exact absurd hcov (by simp [covers])
  | cons hd rest ih =>
    rcases hd with ⟨s, e, ent⟩
    intro lo i p hwf hi hcov
    rcases hwf with ⟨hlo, hse, hlen, hwf'⟩
    simp only [findSpec]
    by_cases h1 : p < s
    · exfalso
      rcases hcov with ⟨r, hr, hrs, hre⟩
      rcases List.mem_cons.mp hr with rfl | hr'
      · dsimp only at hrs hre
        omega
      · have hm := wfFrom_mem rest (e + 1) hwf' r hr'
        omega
    · rw [if_neg h1]
      by_cases h2 : p ≤ e
      · rw [if_pos h2]
        have : (0 : Int) ≤ p - s := by omega
        omega
      · rw [if_neg h2]
        apply ih (e + 1) _ p hwf' (by have := Int.natCast_nonneg ent.length; omega)
        rcases hcov with ⟨r, hr, hrs, hre⟩
        rcases List.mem_cons.mp hr with rfl | hr'
        · dsimp only at hrs hre
          omega
        · exact ⟨r, hr', hrs, hre⟩

theorem findPropertyFrom_below (vm : List Int) (p : Int) (n : Nat) (i : Int)
    (hp : p < getI vm i) : findPropertyFrom vm p (n + 1) i = 0 := by
  simp only [findPropertyFrom]
  rw [if_pos hp]

/-- If the property code is below the first range's start, the scan stops
at that first range — whatever the later ranges and trailing words are. -/
theorem findProperty_below_first (s e : Int) (ent : List Int)
    (rs' : List (Int × Int × List Int)) (junk : List Int) (p : Int) (hp : p < s) :
    findProperty (serializeTable ((s, e, ent) :: rs') ++ junk) p = 0 := by
  have hl : serializeTable ((s, e, ent) :: rs') ++ junk
      = (((s, e, ent) :: rs').length : Int)
          :: (s :: (e :: (ent ++ (serializeRanges rs' ++ junk)))) := by
    simp [serializeTable, serializeRanges]
  unfold findProperty
  rw [hl, getI_cons_zero, Int.toNat_natCast, List.length_cons]
  apply findPropertyFrom_below
  rw [show (1 : Int) = 0 + 1 by norm_num, getI_cons_succ _ _ _ le_rfl, getI_cons_zero]
  exact hp

/-! ### Alias transformations for loose-match invariance -/

/-- Toggle the case of one ASCII byte. -/
def flipCaseChar (c : Nat) : Nat :=
  if 0x41 ≤ c ∧ c ≤ 0x5a then c + 0x20
  else if 0x61 ≤ c ∧ c ≤ 0x7a then c - 0x20
  else c

/-- A string with the case of every character flipped. -/
def flipCase (a : List Nat) : List Nat := a.map flipCaseChar

/-- Relation `InsDelims a b`: `b` is `a` with `-`, `_`, or ASCII space characters
inserted at arbitrary positions. -/
inductive InsDelims : List Nat → List Nat → Prop
  | nil : InsDelims [] []
  | keep (c : Nat) {xs ys : List Nat} : InsDelims xs ys → InsDelims (c :: xs) (c :: ys)
  | ins (d : Nat) {xs ys : List Nat} (hd : d = 0x2d ∨ d = 0x5f ∨ d = 0x20) :
      InsDelims xs ys → InsDelims xs (d :: ys)

/-- ASCII whitespace as allowed for leading/trailing padding. -/
def isWS (c : Nat) : Prop := c = 0x20 ∨ (0x09 ≤ c ∧ c ≤ 0x0d)

theorem uprv_asciitolower_flip (c : Nat) :
    uprv_asciitolower (flipCaseChar c) = uprv_asciitolower c := by
  unfold flipCaseChar uprv_asciitolower
  split_ifs <;> omega

theorem isIgnorable_flip (c : Nat) :
    isIgnorable (flipCaseChar c) = isIgnorable c := by
  unfold flipCaseChar
  split_ifs with h1 h2
  · apply isIgnorable_ext; omega
  · apply isIgnorable_ext; omega
  · rfl

theorem flipCaseChar_ne_zero {c : Nat} (h : c ≠ 0) : flipCaseChar c ≠ 0 := by
  unfold flipCaseChar
  split_ifs <;> omega

theorem sigList_flipCase (a : List Nat) : sigList (flipCase a) = sigList a := by
  induction a with
  | nil => rfl
  | cons c rest ih =>
    have : flipCase (c :: rest) = flipCaseChar c :: flipCase rest := rfl
    rw [this, sigList_cons, sigList_cons, isIgnorable_flip, uprv_asciitolower_flip, ih]

theorem sigList_insDelims {a b : List Nat} (h : InsDelims a b) :
    sigList b = sigList a := by
  induction h with
  | nil => rfl
  | keep c _ ih => rw [sigList_cons, sigList_cons, ih]
  | ins d hd _ ih =>
    rw [sigList_cons, if_pos (isIgnorable_iff d |>.mpr (by omega))]
    exact ih

theorem insDelims_ne_zero {a b : List Nat} (h : InsDelims a b)
    (ha : ∀ c ∈ a, c ≠ 0) : ∀ c ∈ b, c ≠ 0 := by
  induction h with
  | nil => exact ha
  | keep c hrec ih =>
    intro x hx
    rcases List.mem_cons.mp hx with rfl | hx'
    · exact ha x (List.mem_cons_self x _)
    · exact ih (fun y hy => ha y (List.mem_cons_of_mem c hy)) x hx'
  | ins d hd hrec ih =>
    intro x hx
    rcases List.mem_cons.mp hx with rfl | hx'
    · omega
    · exact ih ha x hx'

theorem isWS_ignorable {c : Nat} (h : isWS c) : isIgnorable c = true :=
  (isIgnorable_iff c).mpr (by rcases h with h | h <;> omega)

/-- Both reverse-lookup entry points factor through the significant
stream of the alias. -/
theorem getPropertyOrValueEnum_congr {a b : List Nat}
    (hza : ∀ c ∈ a, c ≠ 0) (hzb : ∀ c ∈ b, c ≠ 0) (hs : sigList a = sigList b)
    (tries : Int → ByteTrie) (off : Int) :
    getPropertyOrValueEnum tries off (some a) = getPropertyOrValueEnum tries off (some b) := by
  have e : ∀ t : ByteTrie, matchName t [] a = matchName t [] b := fun t => by
    rw [matchName_sig a [] hza, matchName_sig b [] hzb, hs]
  simp only [getPropertyOrValueEnum, e]

theorem getPropertyValueEnum_congr {a b : List Nat}
    (hza : ∀ c ∈ a, c ≠ 0) (hzb : ∀ c ∈ b, c ≠ 0) (hs : sigList a = sigList b)
    (vm : List Int) (tries : Int → ByteTrie) (prop : Int) :
    getPropertyValueEnum vm tries prop (some a) =
      getPropertyValueEnum vm tries prop (some b) := by
  simp only [getPropertyValueEnum]
  split_ifs with h1 h2
  · rfl
  · rfl
  · exact getPropertyOrValueEnum_congr hza hzb hs tries _

/-! ### Claim theorems -/

/-- Claim C6: in the concrete dense-encoding scenario — property range table
`[(0,2,offsetA)]`, dense value map `(0,1) ↦ groupX` at `offsetA`,
`groupX = {count 2, "Foo", "Foobar"}` — the facade returns "Foo" for
`(0,0,0)`, "Foobar" for `(0,0,1)`, not-found for `(0,2,0)` (value 2 is
outside the mapped value sub-range though inside the property's range),
and value 0 for the loosely matching alias "f-o-o". -/
theorem c6_concrete_scenario :
    getPropertyValueName vmScenario ngScenario 0 0 0 = some [70, 111, 111] ∧
    getPropertyValueName vmScenario ngScenario 0 0 1 = some [70, 111, 111, 98, 97, 114] ∧
    getPropertyValueName vmScenario ngScenario 0 2 0 = none ∧
    getPropertyValueEnum vmScenario triesScenario 0 (some [102, 45, 111, 45, 111]) = 0 := by
  refine ⟨by decide, by decide, by decide, by decide⟩

/-- Claim C4: `getName` bounds — the decoder reports not-found for a negative
index, an index at or beyond the group's count, and for index 0 when the
first stored name is empty; and on a group with count ≥ 2 whose first
entry is empty but second is not, index 1 returns that non-empty second
name (the empty-name sentinel applies only at index 0). -/
theorem c4_name_group_bounds (ng : List Nat) (off i : Int) :
    ((i < 0 ∨ sChar ng off ≤ i ∨ (i = 0 ∧ getByte ng (off + 1) = 0)) →
      getName ng off i = none) ∧
    (2 ≤ sChar ng off → getByte ng (off + 1) = 0 → getByte ng (off + 2) ≠ 0 →
      getName ng off 1 = some (strFrom ng (off + 2)) ∧ strFrom ng (off + 2) ≠ []) := by
  constructor
  · intro h
    simp only [getName, if_pos h]
  · intro hcount hfirst hsecond
    have hcond : ¬((1 : Int) < 0 ∨ sChar ng off ≤ 1 ∨ ((1 : Int) = 0 ∧ getByte ng (off + 1) = 0)) := by
      push_neg
      refine ⟨by norm_num, by omega, fun h => absurd h (by norm_num)⟩
    refine ⟨?_, strFrom_ne_nil hsecond⟩
    simp only [getName, if_neg hcond]
    have hskip : skipStrings ng (off + 1) (1 : Int).toNat = off + 2 := by
      have : (1 : Int).toNat = 1 := rfl
      rw [this]
      simp only [skipStrings, strchr0_of_zero hfirst]
      omega
    rw [hskip]

/-- Witness for C4 at a concrete group: count 2, first name empty,
second name "A". -/
theorem c4_name_group_bounds_witness :
    getName [2, 0, 65, 0] 0 3 = none ∧
    (getName [2, 0, 65, 0] 0 1 = some (strFrom [2, 0, 65, 0] 2) ∧
      strFrom [2, 0, 65, 0] 2 ≠ []) :=
  ⟨(c4_name_group_bounds [2, 0, 65, 0] 0 3).1 (by decide),
   (c4_name_group_bounds [2, 0, 65, 0] 0 1).2 (by decide) (by decide) (by decide)⟩

/-- Claim C9: when a value map's count word is exactly the sparse threshold
0x10 (an empty sparse list), the do/while list scan still runs one
iteration: the word right after the count is read as a candidate value
and, on an exact match, that same word is returned as the name-group
offset; the function does not return 0 without scanning. -/
theorem c9_sparse_threshold (vm : List Int) (vmIdx value : Int)
    (h0 : vmIdx ≠ 0) (hc : getI vm (vmIdx + 1) = 0x10) :
    findPropertyValueNameGroup vm vmIdx value =
      if value = getI vm (vmIdx + 2) then getI vm (vmIdx + 2) else 0 := by
  simp only [findPropertyValueNameGroup, if_neg h0, hc]
  norm_num
  have h2 : vmIdx + 1 + 1 = vmIdx + 2 := by ring
  rw [h2, findValueList]
  simp only [sub_self, add_zero]
  by_cases hlt : value < getI vm (vmIdx + 2)
  · have hne : value ≠ getI vm (vmIdx + 2) := by omega
    simp [hlt, hne]
  · by_cases heq : value = getI vm (vmIdx + 2)
    · simp [hlt, heq]
    · simp [hlt, heq]

theorem getName_strFrom {ng : List Nat} {off i : Int} {s : List Nat}
    (h : getName ng off i = some s) : ∃ q, s = strFrom ng q := by
  unfold getName at h
  by_cases hcond : i < 0 ∨ sChar ng off ≤ i ∨ (i = 0 ∧ getByte ng (off + 1) = 0)
  · rw [if_pos hcond] at h
    exact absurd h (by simp)
  · rw [if_neg hcond] at h
    injection h with h'
    exact ⟨_, h'.symm⟩

theorem getName_nul_free {ng : List Nat} {off i : Int} {s : List Nat}
    (h : getName ng off i = some s) : ∀ c ∈ s, c ≠ 0 := by
  rcases getName_strFrom h with ⟨q, rfl⟩
  exact fun c hc => strFrom_ne_zero hc

/-- Claim C1: round-trip at the facade — if property `p` is known to the
table with short name `s` (`getPropertyName p 0 = some s`) and the
generated root automaton stores the normalized short name with value `p`
(the generator's contract, modelled from the spec), then
`getPropertyEnum s = p`; likewise, a value alias `a` stored for `(p, v)`
satisfies `getPropertyValueEnum p a = v` through the per-property
automaton. -/
theorem c1_roundtrip (vm : List Int) (ng : List Nat) (tries : Int → ByteTrie)
    (p v nc : Int) (s a : List Nat) :
    (getPropertyName vm ng p 0 = some s →
      (tries 0).lookup (sigList s) = some p →
      getPropertyEnum tries (some s) = p) ∧
    (getPropertyValueName vm ng p v nc = some a →
      (tries (getI vm (getI vm (findProperty vm p + 1)))).lookup (sigList a) = some v →
      getPropertyValueEnum vm tries p (some a) = v) := by
  constructor
  · intro hname hroot
    have hz : ∀ c ∈ s, c ≠ 0 := by
      unfold getPropertyName at hname
      by_cases hi : findProperty vm p = 0
      · rw [if_pos hi] at hname
        exact absurd hname (by simp)
      · rw [if_neg hi] at hname
        exact getName_nul_free hname
    have hm : matchName (tries 0) [] s = some (sigList s) := by
      rw [matchName_sig s [] hz]
      exact matchSig_of_lookup hroot (sigList s) [] rfl
    simp [getPropertyEnum, getPropertyOrValueEnum, hm, ByteTrie.valueAt, hroot]
  · intro hvname htrie
    have hi : findProperty vm p ≠ 0 := by
      intro h0
      unfold getPropertyValueName at hvname
      rw [if_pos h0] at hvname
      exact absurd hvname (by simp)
    unfold getPropertyValueName at hvname
    rw [if_neg hi] at hvname
    by_cases hngo : findPropertyValueNameGroup vm (getI vm (findProperty vm p + 1)) v = 0
    · rw [if_pos hngo] at hvname
      exact absurd hvname (by simp)
    · rw [if_neg hngo] at hvname
      have hz : ∀ c ∈ a, c ≠ 0 := getName_nul_free hvname
      have hvmi : getI vm (findProperty vm p + 1) ≠ 0 := by
        intro h0
        apply hngo
        rw [h0]
        rfl
      have hm : matchName (tries (getI vm (getI vm (findProperty vm p + 1)))) [] a =
          some (sigList a) := by
        rw [matchName_sig a [] hz]
        exact matchSig_of_lookup htrie (sigList a) [] rfl
      simp [getPropertyValueEnum, getPropertyOrValueEnum, if_neg hi, if_neg hvmi, hm,
        ByteTrie.valueAt, htrie]

/-- Witness for C1 on the concrete scenario: property 0's short name "K"
resolves back to 0, and the value alias "Foo" of `(0, 0)` resolves back
to value 0. -/
theorem c1_roundtrip_witness :
    getPropertyEnum triesRoundtrip (some [75]) = 0 ∧
    getPropertyValueEnum vmScenario triesRoundtrip 0 (some [70, 111, 111]) = 0 :=
  ⟨(c1_roundtrip vmScenario ngScenario triesRoundtrip 0 0 0 [75] [70, 111, 111]).1
      (by decide) (by decide),
   (c1_roundtrip vmScenario ngScenario triesRoundtrip 0 0 0 [75] [70, 111, 111]).2
      (by decide) (by decide)⟩

/-- Claim C5: monotonic range-scan termination — over a well-formed
(ascending, disjoint) range table, `findProperty` returns the not-found
sentinel 0 for any property code below the first range's start (stopping
at that first range, independent of everything after it) and for any
code above the last range's end; and the result never depends on words
beyond the table (arbitrary `junk` may follow it). -/
theorem c5_range_scan (lo s e : Int) (ent : List Int)
    (rs rs' : List (Int × Int × List Int)) (junk junk' : List Int) (p : Int)
    (hwf : wfFrom lo ((s, e, ent) :: rs)) :
    (p < s → findProperty (serializeTable ((s, e, ent) :: rs') ++ junk') p = 0) ∧
    (lastEnd ((s, e, ent) :: rs) < p →
      findProperty (serializeTable ((s, e, ent) :: rs) ++ junk) p = 0) ∧
    findProperty (serializeTable ((s, e, ent) :: rs) ++ junk) p =
      findProperty (serializeTable ((s, e, ent) :: rs) ++ junk') p := by
  refine ⟨fun hp => findProperty_below_first s e ent rs' junk' p hp, fun hp => ?_, ?_⟩
  · rw [findProperty_serialize _ lo junk p hwf]
    apply findSpec_not_covers _ lo _ p hwf
    rintro ⟨r, hr, hrs, hre⟩
    have := wfFrom_ends _ lo hwf r hr
    omega
  · rw [findProperty_serialize _ lo junk p hwf, findProperty_serialize _ lo junk' p hwf]

/-- Witness for C5 on the one-range table `(1, 2)`: code 0 is below the
first start, code 5 is above the last end, and the result at code 1 does
not change when a junk word follows the table. -/
theorem c5_range_scan_witness :
    findProperty (serializeTable [(1, 2, [5, 6, 7, 8])] ++ []) 0 = 0 ∧
    findProperty (serializeTable [(1, 2, [5, 6, 7, 8])] ++ []) 5 = 0 ∧
    findProperty (serializeTable [(1, 2, [5, 6, 7, 8])] ++ []) 1 =
      findProperty (serializeTable [(1, 2, [5, 6, 7, 8])] ++ [99]) 1 :=
  ⟨(c5_range_scan 0 1 2 [5, 6, 7, 8] [] [] [] [] 0 (by simp [wfFrom])).1 (by decide),
   (c5_range_scan 0 1 2 [5, 6, 7, 8] [] [] [] [] 5 (by simp [wfFrom])).2.1 (by decide),
   (c5_range_scan 0 1 2 [5, 6, 7, 8] [] [] [] [99] 1 (by simp [wfFrom])).2.2⟩

/-- Claim C10: sentinel non-collision — on a well-formed property range
table, whenever `findProperty` returns a nonzero result, that result is
at least 3 (one word past the `numRanges` word and one two-word range
header), so a legitimate hit index can never equal the 0 sentinel. -/
theorem c10_sentinel (lo : Int) (rs : List (Int × Int × List Int))
    (junk : List Int) (p : Int) (hwf : wfFrom lo rs)
    (hne : findProperty (serializeTable rs ++ junk) p ≠ 0) :
    3 ≤ findProperty (serializeTable rs ++ junk) p := by
  rw [findProperty_serialize rs lo junk p hwf] at hne ⊢
  rcases findSpec_pos rs 1 p with h | h
  · exact absurd h hne
  · omega

/-- Witness for C10: on the table with the single range `(0, 0)`, the hit
for property 0 is the index 3. -/
theorem c10_sentinel_witness :
    3 ≤ findProperty (serializeTable [(0, 0, [4, 9])] ++ []) 0 :=
  c10_sentinel 0 [(0, 0, [4, 9])] [] 0 (by simp [wfFrom]) (by decide)

/-- Claim C3: error taxonomy of `getPropertyValueEnum` — the invalid-enum
sentinel is returned exactly when the property is unknown (equivalently,
over a well-formed serialized table, not covered by any range), or its
value-map offset is 0, or the alias fails the per-property automaton
(when the automaton carries no sentinel-valued entries); a null alias is
always a non-match, with no automaton operation involved, and no other
failure signal exists. -/
theorem c3_error_taxonomy (vm : List Int) (tries : Int → ByteTrie) (p lo : Int)
    (al : Option (List Nat)) (rs : List (Int × Int × List Int)) (junk : List Int) :
    getPropertyValueEnum vm tries p none = UCHAR_INVALID_CODE ∧
    (∀ t : ByteTrie, containsName t none = false) ∧
    ((∀ en ∈ (tries (getI vm (getI vm (findProperty vm p + 1)))).entries,
        en.2 ≠ UCHAR_INVALID_CODE) →
      (getPropertyValueEnum vm tries p al = UCHAR_INVALID_CODE ↔
        (findProperty vm p = 0 ∨ getI vm (findProperty vm p + 1) = 0 ∨
          containsName (tries (getI vm (getI vm (findProperty vm p + 1)))) al = false))) ∧
    (wfFrom lo rs → (findProperty (serializeTable rs ++ junk) p = 0 ↔ ¬covers rs p)) := by
  refine ⟨?_, fun t => rfl, ?_, ?_⟩
  · simp only [getPropertyValueEnum, getPropertyOrValueEnum]
    split_ifs <;> rfl
  · intro hv
    by_cases hi : findProperty vm p = 0
    · have hL : getPropertyValueEnum vm tries p al = UCHAR_INVALID_CODE := by
        simp [getPropertyValueEnum, hi]
      rw [hL]
      simp [hi]
    · by_cases hvmi : getI vm (findProperty vm p + 1) = 0
      · have hL : getPropertyValueEnum vm tries p al = UCHAR_INVALID_CODE := by
          simp [getPropertyValueEnum, hi, hvmi]
        rw [hL]
        simp [hvmi]
      · have hL : getPropertyValueEnum vm tries p al =
            getPropertyOrValueEnum tries (getI vm (getI vm (findProperty vm p + 1))) al := by
          simp [getPropertyValueEnum, hi, hvmi]
        rw [hL]
        rcases al with _ | a
        · simp [getPropertyOrValueEnum, containsName, hi, hvmi]
        · rcases hm : matchName (tries (getI vm (getI vm (findProperty vm p + 1)))) [] a
            with _ | pos
          · simp [getPropertyOrValueEnum, containsName, hm, hi, hvmi]
          · have hcont := matchName_some_containsAt hm
            rcases valueAt_mem hcont with ⟨en, hmem, hval⟩
            have hne : (tries (getI vm (getI vm (findProperty vm p + 1)))).valueAt pos ≠
                UCHAR_INVALID_CODE := by
              rw [hval]
              exact hv en hmem
            simp [getPropertyOrValueEnum, containsName, hm, hi, hvmi, hne]
  · intro hwf
    rw [findProperty_serialize rs lo junk p hwf]
    constructor
    · intro h0 hcov
      exact findSpec_covers_ne rs lo 1 p hwf (by norm_num) hcov h0
    · exact findSpec_not_covers rs lo 1 p hwf

/-- Witness for C3 on the concrete scenario table: the sentinel taxonomy
holds for the alias "f-o-o" at property 0, and coverage of the table
`[(1, 2)]` decides the sentinel for property 0. -/
theorem c3_error_taxonomy_witness :
    getPropertyValueEnum vmScenario triesScenario 0 none = UCHAR_INVALID_CODE ∧
    containsName (ByteTrie.mk []) none = false ∧
    (getPropertyValueEnum vmScenario triesScenario 0 (some [102, 45, 111, 45, 111]) =
        UCHAR_INVALID_CODE ↔
      (findProperty vmScenario 0 = 0 ∨ getI vmScenario (findProperty vmScenario 0 + 1) = 0 ∨
        containsName
          (triesScenario (getI vmScenario (getI vmScenario (findProperty vmScenario 0 + 1))))
          (some [102, 45, 111, 45, 111]) = false)) ∧
    (findProperty (serializeTable [(1, 2, [5, 6, 7, 8])] ++ []) 0 = 0 ↔
      ¬covers [(1, 2, [5, 6, 7, 8])] 0) := by
  have h := c3_error_taxonomy vmScenario triesScenario 0 0
    (some [102, 45, 111, 45, 111]) [(1, 2, [5, 6, 7, 8])] []
  exact ⟨h.1, h.2.1 (ByteTrie.mk []), h.2.2.1 (by decide), h.2.2.2 (by simp [wfFrom])⟩

/-- Claim C2: loose-match invariance of reverse lookup — for every non-null
alias `a`, `getPropertyEnum` and `getPropertyValueEnum` (for any fixed
property, over any table and automata) give identical results for `a`
with the case of its characters flipped, for `a` with `-`/`_`/space
inserted between its characters, and for `a` padded with leading or
trailing ASCII whitespace. -/
theorem c2_loose_invariance (tries : Int → ByteTrie) (vm : List Int) (prop : Int)
    (a b : List Nat) (hz : ∀ c ∈ a, c ≠ 0)
    (hb : b = flipCase a ∨ InsDelims a b ∨
      ∃ w1 w2, (∀ c ∈ w1, isWS c) ∧ (∀ c ∈ w2, isWS c) ∧ b = w1 ++ a ++ w2) :
    getPropertyEnum tries (some b) = getPropertyEnum tries (some a) ∧
    getPropertyValueEnum vm tries prop (some b) = getPropertyValueEnum vm tries prop (some a) := by
  have key : (∀ c ∈ b, c ≠ 0) ∧ sigList b = sigList a := by
    rcases hb with rfl | h | ⟨w1, w2, hw1, hw2, rfl⟩
    · refine ⟨?_, sigList_flipCase a⟩
      intro c hc
      rcases List.mem_map.mp hc with ⟨d, hd, rfl⟩
      exact flipCaseChar_ne_zero (hz d hd)
    · exact ⟨insDelims_ne_zero h hz, sigList_insDelims h⟩
    · constructor
      · intro c hc
        rcases List.mem_append.mp hc with hc' | hc2
        · rcases List.mem_append.mp hc' with hc1 | hca
          · exact isIgnorable_ne_zero (isWS_ignorable (hw1 c hc1))
          · exact hz c hca
        · exact isIgnorable_ne_zero (isWS_ignorable (hw2 c hc2))
      · rw [sigList_append, sigList_append,
          sigList_eq_nil_of_ignorable (fun c hc => isWS_ignorable (hw1 c hc)),
          sigList_eq_nil_of_ignorable (fun c hc => isWS_ignorable (hw2 c hc))]
        simp
  exact ⟨getPropertyOrValueEnum_congr key.1 hz key.2 tries 0,
    getPropertyValueEnum_congr key.1 hz key.2 vm tries prop⟩

/-- Witness for C2: the alias "F" and its case-flipped form "f" resolve
identically over the empty table. -/
theorem c2_loose_invariance_witness :
    getPropertyEnum (fun _ => ByteTrie.mk []) (some [102]) =
      getPropertyEnum (fun _ => ByteTrie.mk []) (some [70]) ∧
    getPropertyValueEnum [] (fun _ => ByteTrie.mk []) 0 (some [102]) =
      getPropertyValueEnum [] (fun _ => ByteTrie.mk []) 0 (some [70]) :=
  c2_loose_invariance (fun _ => ByteTrie.mk []) [] 0 [70] [102]
    (by decide) (Or.inl (by decide))

/-- Running `containsName` on an alias made only of ignorable characters never
steps the automaton: it reduces to the terminal test at the initial
position. -/
theorem matchName_all_ignorable {t : ByteTrie} :
    ∀ {a : List Nat} (consumed : List Nat), (∀ c ∈ a, isIgnorable c = true) →
      matchName t consumed a =
        if t.containsAt consumed then some consumed else none := by
  intro a
  induction a with
  | nil => intro consumed _; rfl
  | cons c rest ih =>
    intro consumed ha
    have hc : isIgnorable c = true := ha c (List.mem_cons_self c rest)
    rw [matchName, if_neg (isIgnorable_ne_zero hc),
      if_pos (by rw [isIgnorable_lower]; exact hc)]
    exact ih consumed fun x hx => ha x (List.mem_cons_of_mem c hx)

/-- Claim C8: for every alias consisting only of ignorable characters
(including the empty string), `containsName` feeds no byte into the
automaton and reports whether the initial position is a terminal;
hence `getPropertyEnum ""` equals the root automaton's value at its
initial position when that position is terminal — it is not
unconditionally the invalid sentinel, as the final conjunct shows on a
root automaton holding the empty key with value 7. -/
theorem c8_empty_alias (tries : Int → ByteTrie) (a : List Nat)
    (ha : ∀ c ∈ a, isIgnorable c = true) :
    containsName (tries 0) (some a) = (tries 0).containsAt [] ∧
    getPropertyEnum tries (some a) =
      (match (tries 0).lookup [] with
        | some v => v
        | none => UCHAR_INVALID_CODE) ∧
    getPropertyEnum (fun _ => ByteTrie.mk [([], 7)]) (some []) = 7 := by
  have hm := matchName_all_ignorable (t := tries 0) [] ha
  refine ⟨?_, ?_, by decide⟩
  · rw [containsName, hm]
    by_cases hc : (tries 0).containsAt [] = true
    · rw [if_pos hc, hc]; rfl
    · rw [if_neg hc, Bool.not_eq_true] at *
      rw [hc]
      rfl
  · rcases hl : (tries 0).lookup [] with _ | v
    · have hc : (tries 0).containsAt [] = false := by
        rw [← Bool.not_eq_true, containsAt_iff_lookup, hl]
        simp
      simp [getPropertyEnum, getPropertyOrValueEnum, hm, hc]
    · have hc : (tries 0).containsAt [] = true :=
        containsAt_iff_lookup.mpr (by rw [hl]; rfl)
      simp [getPropertyEnum, getPropertyOrValueEnum, hm, hc, ByteTrie.valueAt, hl]

/-- Witness for C8 at the all-ignorable alias "-" over automata whose
root maps the empty string to 5. -/
theorem c8_empty_alias_witness :
    containsName ((fun _ : Int => ByteTrie.mk [([], 5)]) 0) (some [45]) =
      ((fun _ : Int => ByteTrie.mk [([], 5)]) 0).containsAt [] ∧
    getPropertyEnum (fun _ : Int => ByteTrie.mk [([], 5)]) (some [45]) =
      (match ((fun _ : Int => ByteTrie.mk [([], 5)]) 0).lookup [] with
        | some v => v
        | none => UCHAR_INVALID_CODE) ∧
    getPropertyEnum (fun _ => ByteTrie.mk [([], 7)]) (some []) = 7 :=
  c8_empty_alias (fun _ => ByteTrie.mk [([], 5)]) [45] (by decide)

/-- Claim C7: for all NUL-terminated strings `a` and `b`,
`uprv_compareASCIIPropertyNames a b` equals the lexicographic three-way
comparison of the two streams of lowercased significant characters; it
returns 0 iff the two streams are identical and end simultaneously; and
`compare ≤ 0` is a total preorder: sign-antisymmetric, total, and
transitive. -/
theorem c7_loose_comparator (a b c : List Nat)
    (ha : ∀ x ∈ a, x ≠ 0) (hb : ∀ x ∈ b, x ≠ 0) (hc : ∀ x ∈ c, x ≠ 0) :
    uprv_compareASCIIPropertyNames a b = sigCompare (sigList a) (sigList b) ∧
    (uprv_compareASCIIPropertyNames a b = 0 ↔ sigList a = sigList b) ∧
    uprv_compareASCIIPropertyNames b a = -uprv_compareASCIIPropertyNames a b ∧
    (uprv_compareASCIIPropertyNames a b ≤ 0 ∨ uprv_compareASCIIPropertyNames b a ≤ 0) ∧
    (uprv_compareASCIIPropertyNames a b ≤ 0 → uprv_compareASCIIPropertyNames b c ≤ 0 →
      uprv_compareASCIIPropertyNames a c ≤ 0) := by
  have e1 := compare_eq_sigCompare_aux (a.length + b.length) a b le_rfl ha hb
  have e2 := compare_eq_sigCompare_aux (b.length + a.length) b a le_rfl hb ha
  have e3 := compare_eq_sigCompare_aux (b.length + c.length) b c le_rfl hb hc
  have e4 := compare_eq_sigCompare_aux (a.length + c.length) a c le_rfl ha hc
  have hanti : uprv_compareASCIIPropertyNames b a = -uprv_compareASCIIPropertyNames a b := by
    rw [e1, e2]; exact sigCompare_neg _ _
  refine ⟨e1, ?_, hanti, by omega, ?_⟩
  · rw [e1]; exact sigCompare_eq_zero_iff (sigList_ne_zero ha) (sigList_ne_zero hb)
  · rw [e1, e3, e4]; exact sigCompare_trans (sigList_ne_zero ha) (sigList_ne_zero hb)

/-- Witness for C7 at the strings "A", "b", "c". -/
theorem c7_loose_comparator_witness :
    uprv_compareASCIIPropertyNames [65] [98] = sigCompare (sigList [65]) (sigList [98]) ∧
    (uprv_compareASCIIPropertyNames [65] [98] = 0 ↔ sigList [65] = sigList [98]) ∧
    uprv_compareASCIIPropertyNames [98] [65] = -uprv_compareASCIIPropertyNames [65] [98] ∧
    (uprv_compareASCIIPropertyNames [65] [98] ≤ 0 ∨ uprv_compareASCIIPropertyNames [98] [65] ≤ 0) ∧
    (uprv_compareASCIIPropertyNames [65] [98] ≤ 0 → uprv_compareASCIIPropertyNames [98] [99] ≤ 0 →
      uprv_compareASCIIPropertyNames [65] [99] ≤ 0) :=
  c7_loose_comparator [65] [98] [99] (by decide) (by decide) (by decide)

/-- Witness for C9 at a concrete table: value map at index 1, count word
0x10, the word after it is 7; looking up value 7 returns 7, value 8
returns 0. -/
theorem c9_sparse_threshold_witness :
    findPropertyValueNameGroup [0, 0, 16, 7] 1 7 =
      if (7 : Int) = getI [0, 0, 16, 7] (1 + 2) then getI [0, 0, 16, 7] (1 + 2) else 0 :=
  c9_sparse_threshold [0, 0, 16, 7] 1 7 (by decide) (by decide)

end PropName
